import Mathlib

/-!
Verification development for the CA-WAN NS-3 scenario repository.

The six scenario programs configure topologies, static routes, traffic and
statistics collection on top of the external ns-3 discrete-event framework.
The specification extracts a minimal simulation core (event scheduler, static
routing table, flow tracker).  The scheduler, the routing lookup and the flow
statistics aggregation live in the external framework, so they are modelled
here from the specification text; the scenario-level code (route
configuration, link-failure callbacks, statistics printing, the attacker
clamp, the custom traffic application) is embedded directly from the files
under src.
-/

namespace CAWan

/-! ## Static routing table (spec section 4.5; configured by
exercise02-multi-link-wan.cc and exercise03-regional-branch-wide-area-robustness.cc) -/

/-- A static routing entry, mirroring the arguments of AddNetworkRouteTo in
the scenario files: destination network, mask (as a prefix length), next hop,
egress interface index, metric.  Addresses are 32-bit values modelled as Nat. -/
structure RoutingEntry where
  dest : Nat
  maskLen : Nat
  nextHop : Nat
  iface : Nat
  metric : Nat
deriving DecidableEq, Repr

/-- Numeric value of a dotted-quad IPv4 address. -/
def ipv4 (a b c d : Nat) : Nat :=
  ((a * 256 + b) * 256 + c) * 256 + d

/-- Modelled from the spec: the lookup filter of the external routing engine,
which is not part of the repository.  An entry matches an address when the
network and the address agree on the first maskLen bits. -/
def entryMatches (a : Nat) (e : RoutingEntry) : Bool :=
  decide (a >>> (32 - e.maskLen) = e.dest >>> (32 - e.maskLen))

/-- Modelled from the spec: the strict preference order between two matching
entries used by the external routing engine.  Longer mask wins; among equal
masks, the lower metric wins. -/
def better (e f : RoutingEntry) : Bool :=
  decide (f.maskLen < e.maskLen) ||
    (decide (e.maskLen = f.maskLen) && decide (e.metric < f.metric))

theorem better_iff (e f : RoutingEntry) :
    better e f = true ↔
      f.maskLen < e.maskLen ∨ (e.maskLen = f.maskLen ∧ e.metric < f.metric) := by
  simp [better]

theorem better_irrefl (e : RoutingEntry) : better e e = false := by
  simp [better]

theorem better_asymm {e f : RoutingEntry} (h : better e f = true) :
    better f e = false := by
  rw [better_iff] at h
  rcases h with h | ⟨h1, h2⟩ <;>
    · simp only [better, Bool.or_eq_false_iff, Bool.and_eq_false_iff,
        decide_eq_false_iff_not]
      omega

theorem better_neg_trans {e f g : RoutingEntry}
    (h1 : better e f = false) (h2 : better f g = false) :
    better e g = false := by
  simp only [better, Bool.or_eq_false_iff, Bool.and_eq_false_iff,
    decide_eq_false_iff_not] at h1 h2 ⊢
  omega

/-- Modelled from the spec: the selection step of the external routing lookup.
Among the candidate entries, the strictly best one is chosen; the earliest
inserted entry survives every tie. -/
def chooseRoute : List RoutingEntry → Option RoutingEntry
  | [] => none
  | e :: rest =>
    some ((chooseRoute rest).elim e (fun b => if better b e then b else e))

/-- Modelled from the spec: the routing lookup of the external engine (the
repository only populates tables through AddNetworkRouteTo).  Tables are kept
in insertion order; lookup filters the matching entries and selects the best. -/
def lookup (t : List RoutingEntry) (a : Nat) : Option RoutingEntry :=
  chooseRoute (t.filter (fun e => entryMatches a e))

theorem chooseRoute_eq_none {l : List RoutingEntry} :
    chooseRoute l = none ↔ l = [] := by
  cases l with
  | nil => simp [chooseRoute]
  | cons e rest => simp [chooseRoute]

theorem chooseRoute_mem {l : List RoutingEntry} :
    ∀ {e : RoutingEntry}, chooseRoute l = some e → e ∈ l := by
  induction l with
  | nil => intro e h; simp [chooseRoute] at h
  | cons x rest ih =>
    intro e h
    simp only [chooseRoute] at h
    cases hr : chooseRoute rest with
    | none => rw [hr] at h; simp [Option.elim] at h; simp [h]
    | some b =>
      rw [hr] at h
      simp only [Option.elim, Option.some.injEq] at h
      by_cases hb : better b x = true
      · rw [if_pos hb] at h
        exact List.mem_cons_of_mem x (ih (h ▸ hr))
      · rw [if_neg hb] at h
        simp [h]

theorem chooseRoute_best {l : List RoutingEntry} :
    ∀ {e : RoutingEntry}, chooseRoute l = some e →
      ∀ f ∈ l, better f e = false := by
  induction l with
  | nil => intro e h; simp [chooseRoute] at h
  | cons x rest ih =>
    intro e h
    simp only [chooseRoute] at h
    cases hr : chooseRoute rest with
    | none =>
      rw [hr] at h
      simp only [Option.elim, Option.some.injEq] at h
      subst h
      intro f hf
      rcases List.mem_cons.mp hf with hfx | hfr
      · subst hfx; exact better_irrefl f
      · exact absurd (chooseRoute_eq_none.mp hr ▸ hfr) (List.not_mem_nil f)
    | some b =>
      rw [hr] at h
      simp only [Option.elim, Option.some.injEq] at h
      by_cases hb : better b x = true
      · rw [if_pos hb] at h
        subst h
        intro f hf
        rcases List.mem_cons.mp hf with hfx | hfr
        · subst hfx; exact better_asymm hb
        · exact ih hr f hfr
      · rw [if_neg hb] at h
        subst h
        intro f hf
        rcases List.mem_cons.mp hf with hfx | hfr
        · subst hfx; exact better_irrefl f
        · exact better_neg_trans (ih hr f hfr) (Bool.not_eq_true _ ▸ hb)

theorem chooseRoute_earliest {l : List RoutingEntry} :
    ∀ {e : RoutingEntry}, chooseRoute l = some e →
      ∃ l₁ l₂, l = l₁ ++ e :: l₂ ∧ ∀ f ∈ l₁, better e f = true := by
  induction l with
  | nil => intro e h; simp [chooseRoute] at h
  | cons x rest ih =>
    intro e h
    simp only [chooseRoute] at h
    cases hr : chooseRoute rest with
    | none =>
      rw [hr] at h
      simp only [Option.elim, Option.some.injEq] at h
      subst h
      exact ⟨[], rest, rfl, by simp⟩
    | some b =>
      rw [hr] at h
      simp only [Option.elim, Option.some.injEq] at h
      by_cases hb : better b x = true
      · rw [if_pos hb] at h
        subst h
        obtain ⟨l₁, l₂, hsplit, hall⟩ := ih hr
        refine ⟨x :: l₁, l₂, by rw [hsplit]; rfl, ?_⟩
        intro f hf
        rcases List.mem_cons.mp hf with hfx | hfl
        · subst hfx; exact hb
        · exact hall f hfl
      · rw [if_neg hb] at h
        subst h
        exact ⟨[], rest, rfl, by simp⟩

/-! ## Concrete routes of exercise03 (manual-failover configuration of node DC-A,
lines 262-293): three routes to 10.1.4.0/24 with metrics 10, 50 and 100. -/

/-- Primary route of DC-A: 10.1.4.0/24 via next hop 10.1.4.2, interface 2, metric 10. -/
def primaryRouteDCA : RoutingEntry :=
  ⟨ipv4 10 1 4 0, 24, ipv4 10 1 4 2, 2, 10⟩

/-- Backup direct route of DC-A: 10.1.4.0/24 via next hop 10.1.3.2, interface 3, metric 50. -/
def backupDirectDCA : RoutingEntry :=
  ⟨ipv4 10 1 4 0, 24, ipv4 10 1 3 2, 3, 50⟩

/-- Backup route of DC-A through the backup router: next hop 10.1.5.2, interface 4, metric 100. -/
def backupViaRouterDCA : RoutingEntry :=
  ⟨ipv4 10 1 4 0, 24, ipv4 10 1 5 2, 4, 100⟩

/-- Two routes to the same network with metrics 10 and 50, in insertion order. -/
def dcaTwoRouteTable : List RoutingEntry :=
  [primaryRouteDCA, backupDirectDCA]

/-- The full manual-failover table of DC-A, in insertion order. -/
def dcaManualFailoverTable : List RoutingEntry :=
  [primaryRouteDCA, backupDirectDCA, backupViaRouterDCA]

/-- C1: for every routing table and destination address, a successful lookup
returns an entry that matches the address, has the longest matching mask,
carries the lowest metric among matches of equal mask length, and is the
earliest-inserted entry among matches it does not strictly beat; in
particular, a table holding the exercise03 metric-10 and metric-50 routes to
10.1.4.0/24 resolves address 10.1.4.2 to the metric-10 next hop. -/
theorem lookup_longest_prefix_metric_insertion
    (t : List RoutingEntry) (a : Nat) (e : RoutingEntry)
    (h : lookup t a = some e) :
    (entryMatches a e = true ∧ e ∈ t
      ∧ (∀ f ∈ t, entryMatches a f = true → f.maskLen ≤ e.maskLen)
      ∧ (∀ f ∈ t, entryMatches a f = true → f.maskLen = e.maskLen →
          e.metric ≤ f.metric)
      ∧ (∃ l₁ l₂, t.filter (fun f => entryMatches a f) = l₁ ++ e :: l₂
          ∧ ∀ f ∈ l₁, better e f = true))
    ∧ lookup dcaTwoRouteTable (ipv4 10 1 4 2) = some primaryRouteDCA := by
  have hmem : e ∈ t.filter (fun f => entryMatches a f) := chooseRoute_mem h
  have hme := List.mem_filter.mp hmem
  refine ⟨⟨hme.2, hme.1, ?_, ?_, chooseRoute_earliest h⟩, by decide⟩
  · intro f hf hfm
    have hin : f ∈ t.filter (fun f => entryMatches a f) :=
      List.mem_filter.mpr ⟨hf, hfm⟩
    have hb := chooseRoute_best h f hin
    simp only [better, Bool.or_eq_false_iff, Bool.and_eq_false_iff,
      decide_eq_false_iff_not] at hb
    omega
  · intro f hf hfm hlen
    have hin : f ∈ t.filter (fun f => entryMatches a f) :=
      List.mem_filter.mpr ⟨hf, hfm⟩
    have hb := chooseRoute_best h f hin
    simp only [better, Bool.or_eq_false_iff, Bool.and_eq_false_iff,
      decide_eq_false_iff_not] at hb
    omega

/-- Witness for C1 at the two-route table of exercise03. -/
theorem lookup_longest_prefix_metric_insertion_witness :
    lookup dcaTwoRouteTable (ipv4 10 1 4 2) = some primaryRouteDCA
    ∧ primaryRouteDCA ∈ dcaTwoRouteTable :=
  ⟨(lookup_longest_prefix_metric_insertion dcaTwoRouteTable (ipv4 10 1 4 2)
      primaryRouteDCA (by decide)).2,
   (lookup_longest_prefix_metric_insertion dcaTwoRouteTable (ipv4 10 1 4 2)
      primaryRouteDCA (by decide)).1.2.1⟩

/-! ## Route removal (spec section 4.5; the first-match removal loop is embedded
from ActivateBackupRoute in exercise03, lines 101-113) -/

/-- Error kind returned when a route removal finds no matching entry. -/
inductive RouteError where
  | routeNotFound
deriving DecidableEq, Repr

/-- Match condition of the removal loop in ActivateBackupRoute: the entry has
the requested destination network and the requested mask. -/
def matchesDM (d m : Nat) (e : RoutingEntry) : Bool :=
  decide (e.dest = d) && decide (e.maskLen = m)

/-- Embeds the removal loop of ActivateBackupRoute (exercise03 lines 103-109):
scan the table in insertion order and remove the first entry whose destination
and mask both match, leaving the rest untouched. -/
def removeFirstRoute (d m : Nat) : List RoutingEntry → Option (List RoutingEntry)
  | [] => none
  | e :: rest =>
    if matchesDM d m e then some rest
    else (removeFirstRoute d m rest).map (fun t => e :: t)

/-- Modelled from the spec: remove_route of the external routing engine; it
removes the first matching entry in insertion order and fails with
RouteNotFound when no entry matches. -/
def removeRoute (t : List RoutingEntry) (d m : Nat) :
    Except RouteError (List RoutingEntry) :=
  match removeFirstRoute d m t with
  | some t2 => Except.ok t2
  | none => Except.error RouteError.routeNotFound

theorem removeFirstRoute_none_iff {d m : Nat} {t : List RoutingEntry} :
    removeFirstRoute d m t = none ↔ ∀ f ∈ t, matchesDM d m f = false := by
  induction t with
  | nil => simp [removeFirstRoute]
  | cons e rest ih =>
    by_cases he : matchesDM d m e = true
    · simp [removeFirstRoute, he]
    · simp only [removeFirstRoute, if_neg he, Option.map_eq_none']
      rw [ih]
      constructor
      · intro hall f hf
        rcases List.mem_cons.mp hf with hfe | hfr
        · subst hfe; exact Bool.not_eq_true _ ▸ he
        · exact hall f hfr
      · intro hall f hf
        exact hall f (List.mem_cons_of_mem e hf)

theorem removeFirstRoute_first {d m : Nat} {pre post : List RoutingEntry}
    {e : RoutingEntry} (hpre : ∀ f ∈ pre, matchesDM d m f = false)
    (he : matchesDM d m e = true) :
    removeFirstRoute d m (pre ++ e :: post) = some (pre ++ post) := by
  induction pre with
  | nil => simp [removeFirstRoute, he]
  | cons x rest ih =>
    have hx : matchesDM d m x = false := hpre x (List.mem_cons_self x rest)
    have hr := ih (fun f hf => hpre f (List.mem_cons_of_mem x hf))
    simp [removeFirstRoute, hx, hr]

/-! ## Network state and administrative operations (exercise03) -/

/-- Per-run network state: one routing table per node id and one data rate per
device id.  Only the parts the claims speak about are kept. -/
structure Network where
  tables : Nat → List RoutingEntry
  linkRate : Nat → Nat

/-- Embeds SimulateLinkFailure (exercise03 lines 72-86): the failure callback
only sets the data rate of the given device to 1 bps; it touches no routing
state. -/
def simulateLinkFailure (s : Network) (dev : Nat) : Network :=
  { s with linkRate := fun d => if d = dev then 1 else s.linkRate d }

/-- Embeds the route-table half of ActivateBackupRoute (exercise03 lines
101-113): remove the first entry matching destination plus mask when one
exists, then add the backup route with metric 50. -/
def activateBackupRoute (s : Network) (n d m nh ifidx : Nat) : Network :=
  { s with tables := fun k =>
      if k = n then
        (match removeFirstRoute d m (s.tables n) with
         | some t2 => t2
         | none => s.tables n) ++ [⟨d, m, nh, ifidx, 50⟩]
      else s.tables k }

/-- AddNetworkRouteTo on one node: the new entry is appended, preserving
insertion order. -/
def addRouteOp (s : Network) (n : Nat) (e : RoutingEntry) : Network :=
  { s with tables := fun k => if k = n then s.tables k ++ [e] else s.tables k }

/-- Modelled from the spec: remove_route as a state operation of the external
engine; on RouteNotFound the state is returned unchanged together with the
error. -/
def removeRouteOp (s : Network) (n d m : Nat) : Network × Option RouteError :=
  match removeFirstRoute d m (s.tables n) with
  | some t2 =>
      ({ s with tables := fun k => if k = n then t2 else s.tables k }, none)
  | none => (s, some RouteError.routeNotFound)

/-- The administrative events the exercise03 scenario schedules. -/
inductive NetOp where
  | addRoute (n : Nat) (e : RoutingEntry)
  | removeRouteEv (n d m : Nat)
  | activateBackup (n d m nh ifidx : Nat)
  | linkFailure (dev : Nat)

/-- Interpretation of one administrative event on the network state. -/
def applyNetOp (s : Network) : NetOp → Network
  | NetOp.addRoute n e => addRouteOp s n e
  | NetOp.removeRouteEv n d m => (removeRouteOp s n d m).1
  | NetOp.activateBackup n d m nh i => activateBackupRoute s n d m nh i
  | NetOp.linkFailure dev => simulateLinkFailure s dev

/-- Classifies the events that are allowed to modify routing tables: the
explicit add, remove and failover events, but not a link failure. -/
def routeChangingOp : NetOp → Bool
  | NetOp.addRoute _ _ => true
  | NetOp.removeRouteEv _ _ _ => true
  | NetOp.activateBackup _ _ _ _ _ => true
  | NetOp.linkFailure _ => false

/-- The exercise03 manual-failover network before the failure: node 1 is DC-A
with its three preconfigured routes; the primary device rate is 10 Mbps. -/
def ex03ManualNet : Network :=
  { tables := fun k => if k = 1 then dcaManualFailoverTable else [],
    linkRate := fun _ => 10000000 }

/-- The state after the two SimulateLinkFailure events scheduled at the
failure time on both primary devices (exercise03 lines 377-378). -/
def ex03AfterFailure : Network :=
  simulateLinkFailure (simulateLinkFailure ex03ManualNet 0) 1

/-- C4: marking a link failed changes no routing table, so every lookup
between the failure event and the explicit failover event still returns the
primary next hop; only the explicit add, remove and failover events may
change routing entries.  The concrete conjuncts replay exercise03: after the
two failure events at t=5 the DC-A lookup of 10.1.4.2 still yields the
metric-10 primary entry, and only the explicit ActivateBackupRoute event at
t=7 makes it yield the metric-50 backup next hop 10.1.3.2. -/
theorem link_failure_preserves_routing
    (s : Network) (dev n a : Nat) :
    (simulateLinkFailure s dev).tables n = s.tables n
    ∧ lookup ((simulateLinkFailure s dev).tables n) a = lookup (s.tables n) a
    ∧ (∀ op, routeChangingOp op = false →
        (applyNetOp s op).tables n = s.tables n)
    ∧ lookup (ex03AfterFailure.tables 1) (ipv4 10 1 4 2) = some primaryRouteDCA
    ∧ (lookup ((activateBackupRoute ex03AfterFailure 1 (ipv4 10 1 4 0) 24
          (ipv4 10 1 3 2) 3).tables 1) (ipv4 10 1 4 2)).map RoutingEntry.nextHop
        = some (ipv4 10 1 3 2) := by
  refine ⟨rfl, rfl, ?_, by decide, by decide⟩
  intro op hop
  cases op with
  | addRoute n e => simp [routeChangingOp] at hop
  | removeRouteEv n d m => simp [routeChangingOp] at hop
  | activateBackup n d m nh i => simp [routeChangingOp] at hop
  | linkFailure dev => rfl

/-- Witness for C4 at the exercise03 state, discharging the frame hypothesis
on the link-failure event. -/
theorem link_failure_preserves_routing_witness :
    (simulateLinkFailure ex03ManualNet 0).tables 1 = ex03ManualNet.tables 1
    ∧ (applyNetOp ex03ManualNet (NetOp.linkFailure 0)).tables 1
        = ex03ManualNet.tables 1 :=
  ⟨(link_failure_preserves_routing ex03ManualNet 0 1 (ipv4 10 1 4 2)).1,
   (link_failure_preserves_routing ex03ManualNet 0 1 (ipv4 10 1 4 2)).2.2.1
     (NetOp.linkFailure 0) rfl⟩

/-- C8: remove_route removes exactly the first entry matching destination and
mask in insertion order; when no entry matches it fails with RouteNotFound
and the network state is unchanged. -/
theorem removeRoute_first_match_or_notfound :
    (∀ d m pre (e : RoutingEntry) post,
        (∀ f ∈ pre, matchesDM d m f = false) → matchesDM d m e = true →
        removeRoute (pre ++ e :: post) d m = Except.ok (pre ++ post))
    ∧ (∀ t d m, (∀ f ∈ t, matchesDM d m f = false) →
        removeRoute t d m = Except.error RouteError.routeNotFound)
    ∧ (∀ s n d m, (∀ f ∈ s.tables n, matchesDM d m f = false) →
        removeRouteOp s n d m = (s, some RouteError.routeNotFound)) := by
  refine ⟨?_, ?_, ?_⟩
  · intro d m pre e post hpre he
    rw [removeRoute, removeFirstRoute_first hpre he]
  · intro t d m hall
    rw [removeRoute, removeFirstRoute_none_iff.mpr hall]
  · intro s n d m hall
    rw [removeRouteOp, removeFirstRoute_none_iff.mpr hall]

/-- Witness for C8: removing 10.1.4.0/24 from the two-route table removes the
first (metric-10) entry, and removing a route that is absent reports
RouteNotFound leaving the state unchanged. -/
theorem removeRoute_first_match_or_notfound_witness :
    removeRoute dcaTwoRouteTable (ipv4 10 1 4 0) 24 = Except.ok [backupDirectDCA]
    ∧ removeRoute dcaTwoRouteTable (ipv4 10 1 9 0) 24
        = Except.error RouteError.routeNotFound
    ∧ removeRouteOp ex03ManualNet 0 (ipv4 10 1 4 0) 24
        = (ex03ManualNet, some RouteError.routeNotFound) :=
  ⟨removeRoute_first_match_or_notfound.1 (ipv4 10 1 4 0) 24 [] primaryRouteDCA
      [backupDirectDCA] (by decide) (by decide),
   removeRoute_first_match_or_notfound.2.1 dcaTwoRouteTable (ipv4 10 1 9 0) 24
      (by decide),
   removeRoute_first_match_or_notfound.2.2 ex03ManualNet 0 (ipv4 10 1 4 0) 24
      (by simp [ex03ManualNet])⟩

/-! ## Discrete-event scheduler (spec sections 4.1, 4.2; the scenario files
only call Simulator::Schedule, Simulator::Stop and Simulator::Run) -/

/-- Modelled from the spec: an event action of the external scheduler.  The
only observable effect an action has on the core is scheduling further events,
so an action is the list of (delay, action) pairs it schedules when run. -/
inductive Act : Type where
  | node : List (Nat × Act) → Act

/-- The schedule requests an action issues when executed. -/
def Act.spawns : Act → List (Nat × Act)
  | Act.node l => l

/-- Modelled from the spec: a pending event of the external scheduler, with
its absolute scheduled time, its insertion sequence number and its action. -/
structure Ev where
  time : Nat
  seq : Nat
  act : Act

/-- Modelled from the spec: the event order (scheduled_time ascending,
insertion_sequence ascending). -/
def evLE (e f : Ev) : Bool :=
  decide (e.time < f.time) || (decide (e.time = f.time) && decide (e.seq ≤ f.seq))

/-- Modelled from the spec: popping the earliest pending event; ties on time
are broken by the insertion sequence.  Returns the chosen event and the
remaining queue. -/
def popMin : List Ev → Option (Ev × List Ev)
  | [] => none
  | e :: rest =>
    some ((popMin rest).elim (e, rest)
      (fun p => if evLE e p.1 then (e, rest) else (p.1, e :: p.2)))

/-- The lexicographic event order as a proposition. -/
def keyLE (e f : Ev) : Prop :=
  e.time < f.time ∨ (e.time = f.time ∧ e.seq ≤ f.seq)

theorem evLE_iff (e f : Ev) : evLE e f = true ↔ keyLE e f := by
  simp [evLE, keyLE]

theorem popMin_eq_none_iff {l : List Ev} : popMin l = none ↔ l = [] := by
  cases l <;> simp [popMin]

theorem popMin_mem {l : List Ev} :
    ∀ {e : Ev} {r : List Ev}, popMin l = some (e, r) → e ∈ l := by
  induction l with
  | nil => intro e r h; simp [popMin] at h
  | cons x rest ih =>
    intro e r h
    simp only [popMin, Option.some.injEq] at h
    cases hr : popMin rest with
    | none => rw [hr] at h; simp only [Option.elim, Prod.mk.injEq] at h; simp [h.1]
    | some p =>
      rw [hr] at h
      simp only [Option.elim] at h
      by_cases hle : evLE x p.1 = true
      · rw [if_pos hle] at h
        simp only [Prod.mk.injEq] at h
        simp [h.1]
      · rw [if_neg hle] at h
        simp only [Prod.mk.injEq] at h
        have : p.1 ∈ rest := ih (hr.trans (by rw [Prod.mk.eta]) : popMin rest = some (p.1, p.2))
        exact List.mem_cons_of_mem x (h.1 ▸ this)

theorem popMin_min {l : List Ev} :
    ∀ {e : Ev} {r : List Ev}, popMin l = some (e, r) → ∀ f ∈ l, keyLE e f := by
  induction l with
  | nil => intro e r h; simp [popMin] at h
  | cons x rest ih =>
    intro e r h
    simp only [popMin, Option.some.injEq] at h
    cases hr : popMin rest with
    | none =>
      rw [hr] at h
      simp only [Option.elim, Prod.mk.injEq] at h
      intro f hf
      rcases List.mem_cons.mp hf with hfx | hfr
      · subst hfx; rw [← h.1]; exact Or.inr ⟨rfl, Nat.le_refl _⟩
      · exact absurd (popMin_eq_none_iff.mp hr ▸ hfr) (List.not_mem_nil f)
    | some p =>
      rw [hr] at h
      simp only [Option.elim] at h
      have hp : popMin rest = some (p.1, p.2) := hr.trans (by rw [Prod.mk.eta])
      by_cases hle : evLE x p.1 = true
      · rw [if_pos hle] at h
        simp only [Prod.mk.injEq] at h
        rw [← h.1]
        intro f hf
        rcases List.mem_cons.mp hf with hfx | hfr
        · subst hfx; exact Or.inr ⟨rfl, Nat.le_refl _⟩
        · have h1 := (evLE_iff x p.1).mp hle
          have h2 := ih hp f hfr
          simp only [keyLE] at h1 h2 ⊢
          omega
      · rw [if_neg hle] at h
        simp only [Prod.mk.injEq] at h
        rw [← h.1]
        intro f hf
        rcases List.mem_cons.mp hf with hfx | hfr
        · rw [hfx]
          have h1 : ¬ keyLE x p.1 := fun hk => hle ((evLE_iff x p.1).mpr hk)
          simp only [keyLE] at h1 ⊢
          omega
        · exact ih hp f hfr

theorem popMin_rest_mem {l : List Ev} :
    ∀ {e : Ev} {r : List Ev}, popMin l = some (e, r) → ∀ f ∈ r, f ∈ l := by
  induction l with
  | nil => intro e r h; simp [popMin] at h
  | cons x rest ih =>
    intro e r h
    simp only [popMin, Option.some.injEq] at h
    cases hr : popMin rest with
    | none =>
      rw [hr] at h
      simp only [Option.elim, Prod.mk.injEq] at h
      intro f hf
      exact List.mem_cons_of_mem x (h.2 ▸ hf)
    | some p =>
      rw [hr] at h
      simp only [Option.elim] at h
      have hp : popMin rest = some (p.1, p.2) := hr.trans (by rw [Prod.mk.eta])
      by_cases hle : evLE x p.1 = true
      · rw [if_pos hle] at h
        simp only [Prod.mk.injEq] at h
        intro f hf
        exact List.mem_cons_of_mem x (h.2 ▸ hf)
      · rw [if_neg hle] at h
        simp only [Prod.mk.injEq] at h
        intro f hf
        rw [← h.2] at hf
        rcases List.mem_cons.mp hf with hfx | hfr
        · simp [hfx]
        · exact List.mem_cons_of_mem x (ih hp f hfr)

theorem popMin_head {x : Ev} {rest : List Ev} {T : Nat}
    (hT : ∀ f ∈ x :: rest, f.time = T)
    (hseq : (x :: rest).Pairwise (fun a b => a.seq < b.seq)) :
    popMin (x :: rest) = some (x, rest) := by
  induction rest generalizing x with
  | nil => rfl
  | cons m rest2 ih =>
    have hT2 : ∀ f ∈ m :: rest2, f.time = T := by
      intro f hf; exact hT f (List.mem_cons_of_mem x hf)
    have hseq2 : (m :: rest2).Pairwise (fun a b => a.seq < b.seq) :=
      (List.pairwise_cons.mp hseq).2
    have hrec := ih hT2 hseq2
    have hxm : x.seq < m.seq :=
      (List.pairwise_cons.mp hseq).1 m (List.mem_cons_self m rest2)
    have hle : evLE x m = true := by
      rw [evLE_iff]
      exact Or.inr ⟨(hT x (List.mem_cons_self x _)).trans
        (hT m (List.mem_cons_of_mem x (List.mem_cons_self m _))).symm,
        Nat.le_of_lt hxm⟩
    conv_lhs => rw [popMin]
    rw [hrec]
    simp [Option.elim, hle]

/-- Modelled from the spec: the scheduler state, holding the virtual clock,
the next insertion sequence number, the pending queue and the list of events
already executed, in execution order. -/
structure SchedState where
  now : Nat
  nextSeq : Nat
  pending : List Ev
  executed : List Ev

/-- Events created by the schedule requests of one executed action: each gets
the current time plus its delay and a fresh consecutive sequence number. -/
def spawnEvs (now seq0 : Nat) : List (Nat × Act) → List Ev
  | [] => []
  | (d, a) :: rest => ⟨now + d, seq0, a⟩ :: spawnEvs now (seq0 + 1) rest

/-- Executing one popped event: the clock advances to its time, its schedule
requests are enqueued with fresh sequence numbers, and it is appended to the
execution record. -/
def execEvent (s : SchedState) (e : Ev) (rest : List Ev) : SchedState :=
  { now := e.time,
    nextSeq := s.nextSeq + e.act.spawns.length,
    pending := rest ++ spawnEvs e.time s.nextSeq e.act.spawns,
    executed := s.executed ++ [e] }

/-- Modelled from the spec: one scheduler step, popping the earliest pending
event and executing it; none when the queue is empty. -/
def stepSched (s : SchedState) : Option SchedState :=
  (popMin s.pending).map (fun p => execEvent s p.1 p.2)

/-- Modelled from the spec: the scheduler main loop, driven by fuel. -/
def runSched : Nat → SchedState → SchedState
  | 0, s => s
  | fuel + 1, s => (stepSched s).elim s (fun s2 => runSched fuel s2)

/-- Modelled from the spec: an external schedule call, enqueuing an event at
now plus delay with the next insertion sequence number.  It does not move the
clock. -/
def scheduleCall (s : SchedState) (delay : Nat) (a : Act) : SchedState :=
  { s with pending := s.pending ++ [⟨s.now + delay, s.nextSeq, a⟩],
           nextSeq := s.nextSeq + 1 }

theorem spawnEvs_bounds {l : List (Nat × Act)} :
    ∀ {n s0 : Nat}, ∀ f ∈ spawnEvs n s0 l,
      n ≤ f.time ∧ s0 ≤ f.seq ∧ f.seq < s0 + l.length := by
  induction l with
  | nil => intro n s0 f hf; simp [spawnEvs] at hf
  | cons p rest ih =>
    intro n s0 f hf
    rcases p with ⟨d, a⟩
    simp only [spawnEvs] at hf
    rcases List.mem_cons.mp hf with hfx | hfr
    · subst hfx
      refine ⟨Nat.le_add_right n d, Nat.le_refl s0, ?_⟩
      simp only [List.length_cons]
      omega
    · have := ih f hfr
      simp only [List.length_cons]
      omega

theorem spawnEvs_seq_pairwise {l : List (Nat × Act)} :
    ∀ {n s0 : Nat}, (spawnEvs n s0 l).Pairwise (fun a b => a.seq < b.seq) := by
  induction l with
  | nil => intro n s0; simp [spawnEvs]
  | cons p rest ih =>
    intro n s0
    rcases p with ⟨d, a⟩
    simp only [spawnEvs]
    refine List.pairwise_cons.mpr ⟨?_, ih⟩
    intro f hf
    have := (spawnEvs_bounds f hf).2.1
    simp only
    omega

/-- Auxiliary FIFO lemma: when every pending event carries the same time, no
event spawns new ones, and insertion sequence numbers increase along the
queue, the run appends the queue to the execution record unchanged. -/
theorem runSched_fifo_aux (evs : List Ev) :
    ∀ (s : SchedState) (T : Nat), s.pending = evs →
      (∀ e ∈ evs, e.time = T) →
      evs.Pairwise (fun a b => a.seq < b.seq) →
      (∀ e ∈ evs, e.act.spawns = []) →
      (runSched evs.length s).executed = s.executed ++ evs := by
  induction evs with
  | nil => intro s T hp _ _ _; simp [runSched]
  | cons x rest ih =>
    intro s T hp hT hseq hact
    have hpop : popMin s.pending = some (x, rest) := by
      rw [hp]; exact popMin_head hT hseq
    have hstep : stepSched s = some (execEvent s x rest) := by
      rw [stepSched, hpop]; rfl
    have hspawn : x.act.spawns = [] := hact x (List.mem_cons_self x rest)
    have hpend2 : (execEvent s x rest).pending = rest := by
      simp [execEvent, hspawn, spawnEvs]
    have hexec2 : (execEvent s x rest).executed = s.executed ++ [x] := rfl
    have hrec := ih (execEvent s x rest) T hpend2
      (fun e he => hT e (List.mem_cons_of_mem x he))
      (List.pairwise_cons.mp hseq).2
      (fun e he => hact e (List.mem_cons_of_mem x he))
    calc (runSched (x :: rest).length s).executed
        = (runSched rest.length (execEvent s x rest)).executed := by
          simp only [List.length_cons, runSched, hstep, Option.elim]
      _ = (s.executed ++ [x]) ++ rest := by rw [hrec, hexec2]
      _ = s.executed ++ (x :: rest) := by
          rw [List.append_assoc, List.singleton_append]

/-- C2: scheduling N events at the same virtual time T in order 1..N makes
the scheduler execute them in exactly that order: starting from a queue of
same-time events whose insertion sequence numbers increase along the queue
and whose actions schedule nothing further, the execution record is the
queue itself. -/
theorem same_time_events_execute_in_insertion_order
    (T now0 nseq : Nat) (evs : List Ev)
    (hT : ∀ e ∈ evs, e.time = T)
    (hseq : evs.Pairwise (fun a b => a.seq < b.seq))
    (hact : ∀ e ∈ evs, e.act.spawns = []) :
    (runSched evs.length ⟨now0, nseq, evs, []⟩).executed = evs := by
  have := runSched_fifo_aux evs ⟨now0, nseq, evs, []⟩ T rfl hT hseq hact
  simpa using this

/-- Three no-spawn events at time 6, in insertion order, mirroring the two
same-time SimulateLinkFailure events of exercise03 lines 377-378. -/
def fifoDemoEvs : List Ev :=
  [⟨6, 0, Act.node []⟩, ⟨6, 1, Act.node []⟩, ⟨6, 2, Act.node []⟩]

/-- Witness for C2 at three concrete events scheduled for time 6. -/
theorem same_time_events_execute_in_insertion_order_witness :
    (runSched fifoDemoEvs.length ⟨0, 3, fifoDemoEvs, []⟩).executed = fifoDemoEvs :=
  same_time_events_execute_in_insertion_order 6 0 3 fifoDemoEvs
    (by intro e he; fin_cases he <;> rfl)
    (by simp [fifoDemoEvs])
    (by intro e he; fin_cases he <;> rfl)

/-- Clock invariant: pending events never lie in the past, executed times are
sorted in execution order and bounded by the clock, and the clock equals the
time of the most recently executed event once anything has executed. -/
def SchedInv (s : SchedState) : Prop :=
  (∀ e ∈ s.pending, s.now ≤ e.time) ∧
  List.Sorted (· ≤ ·) (s.executed.map Ev.time) ∧
  (∀ e ∈ s.executed, e.time ≤ s.now) ∧
  (s.executed = [] ∨ (s.executed.map Ev.time).getLast? = some s.now)

theorem stepSched_preserves_inv {s s2 : SchedState}
    (h : stepSched s = some s2) (hinv : SchedInv s) :
    SchedInv s2 ∧ s.now ≤ s2.now := by
  rw [stepSched] at h
  cases hp : popMin s.pending with
  | none => rw [hp] at h; simp at h
  | some p =>
    rw [hp] at h
    simp only [Option.map_some', Option.some.injEq] at h
    have hp2 : popMin s.pending = some (p.1, p.2) := hp.trans (by rw [Prod.mk.eta])
    have hmemE : p.1 ∈ s.pending := popMin_mem hp2
    have hnowle : s.now ≤ p.1.time := hinv.1 p.1 hmemE
    have hmin : ∀ f ∈ s.pending, keyLE p.1 f := popMin_min hp2
    subst h
    refine ⟨⟨?_, ?_, ?_, ?_⟩, hnowle⟩
    · intro f hf
      simp only [execEvent] at hf ⊢
      rcases List.mem_append.mp hf with hfr | hfs
      · have := hmin f (popMin_rest_mem hp2 f hfr)
        simp only [keyLE] at this
        omega
      · exact (spawnEvs_bounds f hfs).1
    · simp only [execEvent, List.map_append, List.map_cons, List.map_nil]
      show List.Pairwise (· ≤ ·) (List.map Ev.time s.executed ++ [p.1.time])
      rw [List.pairwise_append]
      refine ⟨hinv.2.1, List.pairwise_singleton _ _, ?_⟩
      intro a ha b hb
      simp only [List.mem_singleton] at hb
      subst hb
      obtain ⟨f, hfm, hft⟩ := List.mem_map.mp ha
      have := hinv.2.2.1 f hfm
      omega
    · intro f hf
      simp only [execEvent] at hf ⊢
      rcases List.mem_append.mp hf with hfo | hfn
      · exact (hinv.2.2.1 f hfo).trans hnowle
      · simp only [List.mem_singleton] at hfn
        subst hfn
        exact Nat.le_refl _
    · right
      simp only [execEvent, List.map_append, List.map_cons, List.map_nil]
      exact List.getLast?_concat _

/-- C3: across any run the virtual clock never decreases, the times of the
executed events are non-decreasing in execution order, after each executed
event the clock equals that event's scheduled time, and an external schedule
call never moves the clock (only the scheduler step does). -/
theorem clock_monotone_and_tracks_executed (fuel : Nat) :
    ∀ (s : SchedState), SchedInv s →
      SchedInv (runSched fuel s)
      ∧ s.now ≤ (runSched fuel s).now
      ∧ List.Sorted (· ≤ ·) ((runSched fuel s).executed.map Ev.time)
      ∧ ((runSched fuel s).executed ≠ [] →
          ((runSched fuel s).executed.map Ev.time).getLast?
            = some (runSched fuel s).now)
      ∧ (∀ delay a, (scheduleCall s delay a).now = s.now) := by
  induction fuel with
  | zero =>
    intro s hinv
    exact ⟨hinv, Nat.le_refl _, hinv.2.1,
      fun hne => hinv.2.2.2.resolve_left hne, fun _ _ => rfl⟩
  | succ fuel ih =>
    intro s hinv
    cases hstep : stepSched s with
    | none =>
      simp only [runSched, hstep, Option.elim]
      exact ⟨hinv, Nat.le_refl _, hinv.2.1,
        fun hne => hinv.2.2.2.resolve_left hne, fun _ _ => rfl⟩
    | some s2 =>
      have hpres := stepSched_preserves_inv hstep hinv
      have hrec := ih s2 hpres.1
      simp only [runSched, hstep, Option.elim]
      exact ⟨hrec.1, hpres.2.trans hrec.2.1, hrec.2.2.1, hrec.2.2.2.1,
        fun _ _ => rfl⟩

/-- Witness for C3: one step on a single pending event at time 5. -/
theorem clock_monotone_and_tracks_executed_witness :
    SchedInv ⟨0, 1, [⟨5, 0, Act.node []⟩], []⟩
    ∧ (0 : Nat) ≤ (runSched 1 ⟨0, 1, [⟨5, 0, Act.node []⟩], []⟩).now
    ∧ ((runSched 1 ⟨0, 1, [⟨5, 0, Act.node []⟩], []⟩).executed ≠ [] →
        ((runSched 1 ⟨0, 1, [⟨5, 0, Act.node []⟩], []⟩).executed.map
          Ev.time).getLast?
          = some (runSched 1 ⟨0, 1, [⟨5, 0, Act.node []⟩], []⟩).now) :=
  have hinv : SchedInv ⟨0, 1, [⟨5, 0, Act.node []⟩], []⟩ := by
    refine ⟨?_, ?_, ?_, Or.inl rfl⟩
    · intro e he
      simp only [List.mem_singleton] at he
      subst he
      exact Nat.zero_le _
    · simp
    · intro e he
      simp at he
  ⟨hinv,
   (clock_monotone_and_tracks_executed 1 ⟨0, 1, [⟨5, 0, Act.node []⟩], []⟩
     hinv).2.1,
   (clock_monotone_and_tracks_executed 1 ⟨0, 1, [⟨5, 0, Act.node []⟩], []⟩
     hinv).2.2.2.1⟩

/-! ## Scheduler determinism (spec section 4.2) -/

/-- A possible pop of the queue: some position holds the event, the rest is
the queue with that position removed, and the event is minimal in the
(time, insertion sequence) order.  This relation leaves the choice of
position open, so determinism is a real statement about the tie-break. -/
def IsMinPop (l : List Ev) (e : Ev) (r : List Ev) : Prop :=
  ∃ i : Fin l.length, l.get i = e ∧ r = l.eraseIdx i.val ∧ ∀ f ∈ l, keyLE e f

/-- A complete run of the scheduler described relationally: the trace lists
the executed events in order, each step popping some minimal pending event. -/
inductive SchedRun : SchedState → List Ev → Prop where
  | done : ∀ s, s.pending = [] → SchedRun s []
  | step : ∀ s e r l, IsMinPop s.pending e r →
      SchedRun (execEvent s e r) l → SchedRun s (e :: l)

/-- Sequence-number invariant maintained by the scheduler: pending events
carry pairwise distinct sequence numbers, all below the next fresh number. -/
def SeqInv (s : SchedState) : Prop :=
  s.pending.Pairwise (fun a b => a.seq ≠ b.seq) ∧
  ∀ e ∈ s.pending, e.seq < s.nextSeq

theorem isMinPop_unique {l : List Ev} {e₁ e₂ : Ev} {r₁ r₂ : List Ev}
    (hp : l.Pairwise (fun a b => a.seq ≠ b.seq))
    (h₁ : IsMinPop l e₁ r₁) (h₂ : IsMinPop l e₂ r₂) : e₁ = e₂ ∧ r₁ = r₂ := by
  obtain ⟨i₁, hg₁, hr₁, hm₁⟩ := h₁
  obtain ⟨i₂, hg₂, hr₂, hm₂⟩ := h₂
  have hk₁ : keyLE e₁ e₂ := hm₁ e₂ (by rw [← hg₂]; exact List.get_mem l i₂.val i₂.isLt)
  have hk₂ : keyLE e₂ e₁ := hm₂ e₁ (by rw [← hg₁]; exact List.get_mem l i₁.val i₁.isLt)
  have hseq : e₁.seq = e₂.seq := by
    simp only [keyLE] at hk₁ hk₂
    omega
  have hidx : i₁ = i₂ := by
    by_contra hne
    have hget := List.pairwise_iff_get.mp hp
    rcases Nat.lt_or_ge i₁.val i₂.val with hlt | hge
    · exact hget i₁ i₂ hlt (by rw [hg₁, hg₂, hseq])
    · have hlt2 : i₂ < i₁ := by
        rcases Nat.lt_or_ge i₂.val i₁.val with h | h
        · exact h
        · exact absurd (Fin.ext (Nat.le_antisymm h hge)) hne
      exact hget i₂ i₁ hlt2 (by rw [hg₁, hg₂, hseq])
  refine ⟨?_, ?_⟩
  · rw [← hg₁, ← hg₂, hidx]
  · rw [hr₁, hr₂, hidx]

theorem seqInv_execEvent {s : SchedState} {e : Ev} {r : List Ev}
    (hinv : SeqInv s) (hm : IsMinPop s.pending e r) :
    SeqInv (execEvent s e r) := by
  obtain ⟨i, hg, hr, _⟩ := hm
  have hsub : r.Sublist s.pending := hr ▸ List.eraseIdx_sublist s.pending i.val
  constructor
  · show (r ++ spawnEvs e.time s.nextSeq e.act.spawns).Pairwise
      (fun a b => a.seq ≠ b.seq)
    rw [List.pairwise_append]
    refine ⟨hinv.1.sublist hsub, ?_, ?_⟩
    · exact spawnEvs_seq_pairwise.imp (fun h => Nat.ne_of_lt h)
    · intro a ha b hb
      have ha2 : a.seq < s.nextSeq := hinv.2 a (hsub.subset ha)
      have hb2 : s.nextSeq ≤ b.seq := (spawnEvs_bounds b hb).2.1
      omega
  · intro f hf
    show f.seq < s.nextSeq + e.act.spawns.length
    rcases List.mem_append.mp hf with hfr | hfs
    · have := hinv.2 f (hsub.subset hfr)
      omega
    · exact (spawnEvs_bounds f hfs).2.2

/-- C7: determinism as a two-run property.  From the same scheduler state
with distinct pending sequence numbers, any two complete relational runs of
the scheduler execute exactly the same events in the same order. -/
theorem scheduler_deterministic :
    ∀ {s : SchedState} {l₁ l₂ : List Ev},
      SchedRun s l₁ → SeqInv s → SchedRun s l₂ → l₁ = l₂ := by
  intro s l₁ l₂ h₁
  induction h₁ generalizing l₂ with
  | done s hpend =>
    intro hinv h₂
    cases h₂ with
    | done => rfl
    | step s e r l hm _ =>
      obtain ⟨i, _, _, _⟩ := hm
      have hl := i.isLt
      have h0 : s.pending.length = 0 := by rw [hpend]; rfl
      exact ((by omega : False)).elim
  | step s e r l hm hrun ih =>
    intro hinv h₂
    cases h₂ with
    | done _ hpend =>
      obtain ⟨i, _, _, _⟩ := hm
      have hl := i.isLt
      have h0 : s.pending.length = 0 := by rw [hpend]; rfl
      exact ((by omega : False)).elim
    | step _ e₂ r₂ l₂ hm₂ hrun₂ =>
      obtain ⟨he, hr⟩ := isMinPop_unique hinv.1 hm hm₂
      subst he
      subst hr
      rw [ih (seqInv_execEvent hinv hm) hrun₂]

/-- One pending no-spawn event at time 5 with sequence number 0. -/
def detDemoEv : Ev := ⟨5, 0, Act.node []⟩

/-- Scheduler state holding only the demonstration event. -/
def detDemoState : SchedState := ⟨0, 1, [detDemoEv], []⟩

/-- Witness for C7: the unique complete run from the demonstration state. -/
theorem scheduler_deterministic_witness : ([detDemoEv] : List Ev) = [detDemoEv] :=
  have hmin : IsMinPop detDemoState.pending detDemoEv [] :=
    ⟨⟨0, by simp [detDemoState]⟩, rfl, rfl, by
      intro f hf
      simp only [detDemoState, List.mem_singleton] at hf
      subst hf
      exact Or.inr ⟨rfl, Nat.le_refl _⟩⟩
  have hrun : SchedRun detDemoState [detDemoEv] :=
    SchedRun.step detDemoState detDemoEv [] []
      hmin (SchedRun.done _ rfl)
  have hinv : SeqInv detDemoState :=
    ⟨List.pairwise_singleton _ _, by
      intro e he
      simp only [detDemoState, List.mem_singleton] at he
      subst he
      exact Nat.zero_lt_one⟩
  scheduler_deterministic hrun hinv hrun

/-! ## Flow statistics (spec section 4.6; printed by the statistics loops of
exercise02 lines 305-320, exercise03 lines 441-456 and exercise05 lines
437-444).  Sums are modelled over exact rationals. -/

/-- Per-flow counters accumulated by the external FlowMonitor: packet counts,
received bytes, and the delay and jitter sums. -/
structure FlowStats where
  txPackets : Nat
  rxPackets : Nat
  rxBytes : Nat
  delaySum : ℚ
  jitterSum : ℚ
deriving DecidableEq, Repr

/-- Result of the stats query: each derived quantity is none when undefined. -/
structure StatsResult where
  tx : Nat
  rx : Nat
  lossRate : Option ℚ
  meanDelay : Option ℚ
  meanJitter : Option ℚ
deriving DecidableEq, Repr

/-- Modelled from the spec: the stats query of the external flow tracker;
loss rate is (tx-rx)/tx when tx is nonzero, mean delay is delay_sum/rx when
rx is nonzero, mean jitter is jitter_sum/(rx-1) when rx exceeds one, and each
is undefined otherwise. -/
def stats (fs : FlowStats) : StatsResult :=
  { tx := fs.txPackets,
    rx := fs.rxPackets,
    lossRate :=
      if fs.txPackets = 0 then none
      else some (((fs.txPackets : ℚ) - (fs.rxPackets : ℚ)) / (fs.txPackets : ℚ)),
    meanDelay :=
      if fs.rxPackets = 0 then none
      else some (fs.delaySum / (fs.rxPackets : ℚ)),
    meanJitter :=
      if 1 < fs.rxPackets then some (fs.jitterSum / ((fs.rxPackets : ℚ) - 1))
      else none }

/-- C5: stats returns loss_rate = (tx-rx)/tx and mean_delay = delay_sum/rx,
and every flow with tx = 10 and rx = 6 has loss rate exactly 0.4. -/
theorem stats_loss_rate_and_mean_delay (fs : FlowStats)
    (htx : fs.txPackets ≠ 0) :
    (stats fs).lossRate
        = some (((fs.txPackets : ℚ) - (fs.rxPackets : ℚ)) / (fs.txPackets : ℚ))
    ∧ (fs.rxPackets ≠ 0 →
        (stats fs).meanDelay = some (fs.delaySum / (fs.rxPackets : ℚ)))
    ∧ (fs.txPackets = 10 → fs.rxPackets = 6 →
        (stats fs).lossRate = some (0.4 : ℚ)) := by
  refine ⟨by simp [stats, htx], by intro hrx; simp [stats, hrx], ?_⟩
  intro h10 h6
  simp only [stats, h10, h6]
  norm_num

/-- Witness for C5 at a flow with 10 sent and 6 received packets. -/
theorem stats_loss_rate_and_mean_delay_witness :
    (stats ⟨10, 6, 6144, 3, 1⟩).lossRate = some (0.4 : ℚ)
    ∧ (stats ⟨10, 6, 6144, 3, 1⟩).meanDelay = some ((3 : ℚ) / 6) :=
  ⟨(stats_loss_rate_and_mean_delay ⟨10, 6, 6144, 3, 1⟩ (by decide)).2.2 rfl rfl,
   (stats_loss_rate_and_mean_delay ⟨10, 6, 6144, 3, 1⟩ (by decide)).2.1
     (by decide)⟩

/-! ## The statistics blocks as written in the scenario files.  Each printed
quantity is recorded as an outer Option (whether the guard lets the code
compute it at all) around an inner Option (whether the division it then
performs has a nonzero divisor: some none marks a division by zero, which on
the C++ doubles of the source produces an infinite or NaN value). -/

/-- Division that records a zero divisor instead of defaulting to zero. -/
def qdivOpt (a b : ℚ) : Option ℚ :=
  if b = 0 then none else some (a / b)

/-- One printed flow record. -/
structure FlowReport where
  lossPct : Option (Option ℚ)
  meanDelay : Option (Option ℚ)
  meanJitter : Option (Option ℚ)
deriving DecidableEq, Repr

/-- Embeds the statistics loop body of exercise03 main (lines 444-456): loss
percent is guarded by txPackets > 0, mean delay and mean jitter by
rxPackets > 0, and the jitter division uses divisor rxPackets - 1. -/
def ex03FlowReport (fs : FlowStats) : FlowReport :=
  if 0 < fs.txPackets then
    { lossPct := some (qdivOpt
        (100 * ((fs.txPackets : ℚ) - (fs.rxPackets : ℚ))) (fs.txPackets : ℚ)),
      meanDelay :=
        if 0 < fs.rxPackets then some (qdivOpt fs.delaySum (fs.rxPackets : ℚ))
        else none,
      meanJitter :=
        if 0 < fs.rxPackets then
          some (qdivOpt fs.jitterSum ((fs.rxPackets : ℚ) - 1))
        else none }
  else { lossPct := none, meanDelay := none, meanJitter := none }

/-- Embeds the statistics loop body of exercise02 main (lines 305-320): the
loss percent is computed with no guard on txPackets at all; delay and jitter
are guarded by rxPackets > 0 exactly as in exercise03 (the printed
millisecond scaling is omitted since it cannot affect definedness). -/
def ex02FlowReport (fs : FlowStats) : FlowReport :=
  { lossPct := some (qdivOpt
      (100 * ((fs.txPackets : ℚ) - (fs.rxPackets : ℚ))) (fs.txPackets : ℚ)),
    meanDelay :=
      if 0 < fs.rxPackets then some (qdivOpt fs.delaySum (fs.rxPackets : ℚ))
      else none,
    meanJitter :=
      if 0 < fs.rxPackets then
        some (qdivOpt fs.jitterSum ((fs.rxPackets : ℚ) - 1))
      else none }

/-- Embeds the VoIP average jitter of exercise05 main (line 439), which does
guard the jitter division with rxPackets > 1 and otherwise prints 0. -/
def ex05VoipAvgJitter (rx : Nat) (jitterSum : ℚ) : Option (Option ℚ) :=
  if 1 < rx then
    some ((qdivOpt jitterSum ((rx : ℚ) - 1)).map (fun q => q * 1000))
  else none

/-- C6 evidence: at a flow with tx = 10 and rx = 1 the exercise03 statistics
block passes its rxPackets > 0 guard and performs the jitter division with
divisor rx - 1 = 0, and at tx = 0 the exercise02 block performs the loss
division with divisor 0; the exercise05 aggregate block, by contrast, guards
the same division with rx > 1 and computes nothing at rx = 1, which is the
behaviour the claim states. -/
theorem stats_guard_divides_by_zero_at_rx_one :
    (ex03FlowReport ⟨10, 1, 1024, 2, 3⟩).meanJitter = some none
    ∧ (ex03FlowReport ⟨10, 1, 1024, 2, 3⟩).meanDelay = some (some 2)
    ∧ (ex02FlowReport ⟨0, 0, 0, 0, 0⟩).lossPct = some none
    ∧ ex05VoipAvgJitter 1 5 = none := by
  refine ⟨?_, ?_, ?_, rfl⟩
  · norm_num [ex03FlowReport, qdivOpt]
  · norm_num [ex03FlowReport, qdivOpt]
  · norm_num [ex02FlowReport, qdivOpt]

/-! ## Attacker clamp of exercise06 (lines 42-43, 64-66, 80-84, 109-117) -/

/-- Counts of the per-attacker resources created by exercise06 main. -/
structure Ex06Setup where
  attackerNodes : Nat
  attackerLinks : Nat
  attackerSubnets : Nat
deriving DecidableEq, Repr

/-- Embeds line 43 of exercise06: numAttackers = min(numAttackers, 5). -/
def ex06Clamp (requested : Nat) : Nat := min requested 5

/-- Embeds the attacker setup of exercise06 main: the clamp runs first, then
attackers.Create(numAttackers) makes the nodes, and the two loops create one
link to the router and one 10.1.(3+i).0/24 subnet per attacker. -/
def ex06Setup (requested : Nat) : Ex06Setup :=
  let numAttackers := ex06Clamp requested
  { attackerNodes := numAttackers,
    attackerLinks := ((List.range numAttackers).map (fun i => (1, i))).length,
    attackerSubnets :=
      ((List.range numAttackers).map (fun i => ipv4 10 1 (3 + i) 0)).length }

/-- C9: for every requested attacker count the number of attacker nodes,
attacker links and attacker subnets created all equal min(requested, 5); in
particular any request above 5 is silently clamped to 5. -/
theorem attacker_count_clamped (v : Nat) :
    (ex06Setup v).attackerNodes = min v 5
    ∧ (ex06Setup v).attackerLinks = min v 5
    ∧ (ex06Setup v).attackerSubnets = min v 5
    ∧ (5 < v → (ex06Setup v).attackerNodes = 5) := by
  refine ⟨rfl, by simp [ex06Setup, ex06Clamp], by simp [ex06Setup, ex06Clamp], ?_⟩
  intro hv
  show ex06Clamp v = 5
  rw [ex06Clamp]
  omega

/-- Witness for C9 at a request of 7 attackers. -/
theorem attacker_count_clamped_witness :
    (5 : Nat) < 7 ∧ (ex06Setup 7).attackerNodes = 5 :=
  ⟨by decide, (attacker_count_clamped 7).2.2.2 (by decide)⟩

/-! ## VoipApplication of exercise05 (lines 34-148) -/

/-- Observable state of VoipApplication: m_running, whether a send event is
scheduled and not yet cancelled or fired (m_sendEvent pending), and
m_packetsSent. -/
structure VoipApp where
  running : Bool
  pendingSend : Bool
  packetsSent : Nat
deriving DecidableEq, Repr

/-- Embeds VoipApplication::ScheduleTx (lines 120-127): only while m_running
is true a new send event is scheduled. -/
def scheduleTx (a : VoipApp) : VoipApp :=
  if a.running then { a with pendingSend := true } else a

/-- Embeds VoipApplication::StartApplication (lines 84-104): set m_running,
reset the packet counter, then ScheduleTx. -/
def startApplication (a : VoipApp) : VoipApp :=
  scheduleTx { a with running := true, packetsSent := 0 }

/-- Embeds VoipApplication::StopApplication (lines 106-118): clear m_running
and cancel the pending send event when there is one. -/
def stopApplication (a : VoipApp) : VoipApp :=
  { a with running := false, pendingSend := false }

/-- Embeds VoipApplication::SendPacket (lines 129-148): the fired event sends
one packet and calls ScheduleTx again. -/
def sendPacket (a : VoipApp) : VoipApp :=
  scheduleTx { a with pendingSend := false, packetsSent := a.packetsSent + 1 }

/-- The scheduler fires the send event only while one is pending. -/
def fireSend (a : VoipApp) : VoipApp :=
  if a.pendingSend then sendPacket a else a

/-- Any number of subsequent scheduler firing opportunities. -/
def fireSends (a : VoipApp) : Nat → VoipApp
  | 0 => a
  | n + 1 => fireSends (fireSend a) n

theorem fireSend_stopApplication (a : VoipApp) :
    fireSend (stopApplication a) = stopApplication a := by
  simp [fireSend, stopApplication]

/-- C10: after StopApplication executes, the application never sends another
packet: no number of later firing opportunities changes the state or the
packet counter, ScheduleTx schedules nothing while m_running is false, and
StopApplication leaves no pending send event. -/
theorem stop_application_sends_no_more_packets :
    (∀ (a : VoipApp) (n : Nat),
        fireSends (stopApplication a) n = stopApplication a)
    ∧ (∀ (a : VoipApp) (n : Nat),
        (fireSends (stopApplication a) n).packetsSent = a.packetsSent)
    ∧ (∀ a : VoipApp, a.running = false → scheduleTx a = a)
    ∧ (∀ a : VoipApp, (stopApplication a).pendingSend = false) := by
  have hfix : ∀ (a : VoipApp) (n : Nat),
      fireSends (stopApplication a) n = stopApplication a := by
    intro a n
    induction n with
    | zero => rfl
    | succ n ih =>
      show fireSends (fireSend (stopApplication a)) n = stopApplication a
      rw [fireSend_stopApplication]
      exact ih
  refine ⟨hfix, ?_, ?_, fun a => rfl⟩
  · intro a n
    rw [hfix a n]
    rfl
  · intro a ha
    simp [scheduleTx, ha]

/-- Witness for C10: a running application with a pending send, stopped and
then offered four firing opportunities, sends nothing further. -/
theorem stop_application_sends_no_more_packets_witness :
    fireSends (stopApplication ⟨true, true, 3⟩) 4 = stopApplication ⟨true, true, 3⟩
    ∧ (fireSends (stopApplication ⟨true, true, 3⟩) 4).packetsSent = 3
    ∧ scheduleTx ⟨false, false, 3⟩ = ⟨false, false, 3⟩ :=
  ⟨stop_application_sends_no_more_packets.1 ⟨true, true, 3⟩ 4,
   stop_application_sends_no_more_packets.2.1 ⟨true, true, 3⟩ 4,
   stop_application_sends_no_more_packets.2.2.1 ⟨false, false, 3⟩ rfl⟩

end CAWan
